/-
  Verification development for the nanofuzz pattern compiler and generator VM.

  Shallow embedding of the C sources (src/xoroshiro.c, src/generator.c,
  src/pattern.c, src/api.c) as executable Lean definitions, followed by
  theorems settling the frozen claims about the code.

  Machine integers are modelled by Nat with explicit reductions modulo 2^64
  (for uint64_t / unsigned long / size_t), modulo 2^16 (unsigned short) and
  modulo 2^8 (uint8_t) at the points where the C performs conversions.
-/
import Mathlib

namespace Nanofuzz

/-- 2^64 (written out), the modulus of C uint64_t / unsigned long / size_t
arithmetic. -/
def U64 : Nat := 18446744073709551616

/-! ## PRNG (src/xoroshiro.c and the static PRNG in src/generator.c) -/

/-- 64-bit rotate left, from `__rol64` in src/xoroshiro.c (and `rotl` in
src/generator.c): `(x << k) | (x >> (64-k))`, in uint64 arithmetic. -/
def rol64 (x k : Nat) : Nat :=
  ((x <<< k) % U64) ||| (x >>> (64 - k))

/-- State of xoroshiro256+ (`struct _xoroshiro256p_state_t`), four 64-bit words. -/
structure X256 where
  s0 : Nat
  s1 : Nat
  s2 : Nat
  s3 : Nat
deriving Repr, DecidableEq

/-- One step of `__xoroshiro256p__next` from src/xoroshiro.c: returns the
drawn 64-bit word and the mutated state. -/
def xoroshiro256p_next (s : X256) : Nat × X256 :=
  let result := (s.s0 + s.s3) % U64
  let t := (s.s1 <<< 17) % U64
  let s2a := s.s2 ^^^ s.s0
  let s3a := s.s3 ^^^ s.s1
  let s1a := s.s1 ^^^ s2a
  let s0a := s.s0 ^^^ s3a
  let s2b := s2a ^^^ t
  let s3b := rol64 s3a 45
  (result, ⟨s0a, s1a, s2b, s3b⟩)

/-- `xoroshiro__get_next` from src/xoroshiro.c. -/
def xoroshiro__get_next (s : X256) : Nat × X256 :=
  xoroshiro256p_next s

/-- The branchless bounding computation shared textually by
`xoroshiro__get_bounded` (src/xoroshiro.c) and `Xoshiro128p__next_bounded`
(src/generator.c), applied to a freshly drawn word `v`:

  `(high > low) * ((v % (((1+high-low == 0) * 1) + (1+high-low))) + low)`

all in uint64 arithmetic.  `1 + high - low` is computed with uint64
wrap-around, modelled as `(1 + high + U64 - low) % U64` (valid for
`low < U64`). -/
def boundedOf (v low high : Nat) : Nat :=
  let range := (1 + high + U64 - low) % U64
  let divisor := (if range = 0 then 1 else 0) + range
  (if low < high then 1 else 0) * ((v % divisor + low) % U64)

/-- `xoroshiro__get_bounded` from src/xoroshiro.c: draw one word and apply the
branchless bounding expression. -/
def xoroshiro__get_bounded (s : X256) (low high : Nat) : Nat × X256 :=
  let (v, s') := xoroshiro__get_next s
  (boundedOf v low high, s')

/-- State of the file-static Xoshiro128+ PRNG in src/generator.c
(`static uint64_t s[2]`). -/
structure X128 where
  s0 : Nat
  s1 : Nat
deriving Repr, DecidableEq

/-- `Xoshiro128p__next_bounded` from src/generator.c: steps the two-word
state and applies the same branchless bounding expression to `s0 + s1`. -/
def Xoshiro128p__next_bounded (st : X128) (low high : Nat) : Nat × X128 :=
  let s0 := st.s0
  let s1 := st.s1
  let result := (s0 + s1) % U64
  let s1x := s1 ^^^ s0
  let s0' := (rol64 s0 24) ^^^ s1x ^^^ ((s1x <<< 16) % U64)
  let s1' := rol64 s1x 37
  (boundedOf result low high, ⟨s0', s1'⟩)

/-! ## Escapes (src/pattern.c, `__escape_to_value` and the backslash case
     of `__parse_pattern`) -/

/-- `__escape_to_value` from src/pattern.c, on byte values.  Note the first
step maps upper-case ASCII letters to lower case before dispatching on the
named escapes. -/
def __escape_to_value (esc : Nat) : Nat :=
  let esc := if 0x41 ≤ esc ∧ esc ≤ 0x5A then esc + 0x20 else esc
  if esc = 97 then 0x07        -- a
  else if esc = 98 then 0x08   -- b
  else if esc = 116 then 0x09  -- t
  else if esc = 110 then 0x0A  -- n
  else if esc = 118 then 0x0B  -- v
  else if esc = 102 then 0x0C  -- f
  else if esc = 114 then 0x0D  -- r
  else if esc = 115 then 32    -- s
  else esc

/-- C `isxdigit` on byte values. -/
def isxdigitB (c : Nat) : Bool :=
  (48 ≤ c ∧ c ≤ 57) ∨ (97 ≤ c ∧ c ≤ 102) ∨ (65 ≤ c ∧ c ≤ 70)

/-- Value of a single hexadecimal digit byte (only meaningful when
`isxdigitB` holds). -/
def hexDigitVal (c : Nat) : Nat :=
  if c ≤ 57 then c - 48 else if c ≤ 70 then c - 55 else c - 87

/-- The backslash case of `__parse_pattern` (src/pattern.c lines 613-659):
given the byte after the backslash and the two following bytes, produce the
byte stored into the static-string block, or `none` on a syntax error.
An `x`/`X` escape requires two hex digits and takes their `strtol` base-16
value; every other escape goes through `__escape_to_value`. -/
def parse_escape (esc d1 d2 : Nat) : Option Nat :=
  if esc = 0 then none
  else if esc = 120 ∨ esc = 88 then
    if isxdigitB d1 ∧ isxdigitB d2 then
      some (16 * hexDigitVal d1 + hexDigitVal d2)
    else none
  else some (__escape_to_value esc)

/-! ## Repetition parsing (src/pattern.c, `__get_valid_uint16` and
     `__bracket_parse_range`) -/

/-- Repetition / range-fragment record, `fuzz_repetition_t` from
src/pattern.h (`single` is an unsigned char flag; `base` and `high` are
unsigned short). -/
structure Repetition where
  single : Bool
  base : Nat
  high : Nat
deriving Repr, DecidableEq

/-- Numeric value of a list of ASCII digit characters (C `atoi` on an
all-digit string). -/
def digitsVal (l : List Char) : Nat :=
  l.foldl (fun a c => a * 10 + (c.toNat - 48)) 0

/-- `__get_valid_uint16` from src/pattern.c: rejects strings longer than 5
characters or containing a non-digit, converts with `atoi` cast to
uint16_t, and rejects the value 0.  Returns 0 on any failure.  (C strings
are modelled as their character lists.) -/
def __get_valid_uint16 (s : List Char) : Nat :=
  if 5 < s.length then 0
  else if ¬ (s.all Char.isDigit) then 0
  else
    let val := digitsVal s % 65536
    if val < 1 then 0 else val

/-- Split a character list at every occurrence of the separator. -/
def splitOnChar (sep : Char) : List Char → List (List Char)
  | [] => [[]]
  | c :: rest =>
    let r := splitOnChar sep rest
    if c = sep then [] :: r
    else
      match r with
      | [] => [[c]]
      | t :: ts => (c :: t) :: ts

/-- `strtok_r` tokenisation by a single separator character: the list of
non-empty pieces.  (Coincides with C `strtok_r` for the inputs reaching
`__bracket_parse_range`, which are pre-validated to contain digits and at
most one comma.) -/
def strtokSplit (s : List Char) (sep : Char) : List (List Char) :=
  (splitOnChar sep s).filter (fun t => t ≠ [])

/-- `__bracket_parse_range` from src/pattern.c: parse the text between the
braces of a repetition mechanism into the block's count field.  `cnt` is
the block's current count (mutated in place by the C); `comma` tells
whether the scanned content contains a comma.  Returns `none` where the C
returns 0 (compile error). -/
def __bracket_parse_range (cnt : Repetition) (content : List Char) (comma : Bool) :
    Option Repetition :=
  if comma then
    let cnt := { cnt with single := false }
    if content.headD ' ' = ',' then
      let cnt := { cnt with base := 0 }
      let high := __get_valid_uint16 (content.drop 1)
      if high ≠ 0 then some { cnt with high := high } else none
    else
      match strtokSplit content ',' with
      | [] => none
      | t1 :: rest =>
        let low := __get_valid_uint16 t1
        let base? : Option Nat :=
          if t1.headD ' ' = '0' ∧ low = 0 then some 0
          else if low ≠ 0 then some low
          else none
        match base? with
        | none => none
        | some b =>
          let cnt := { cnt with base := b }
          let high? : Option Nat :=
            match rest with
            | [] => some 65535
            | t2 :: _ =>
              let h := __get_valid_uint16 t2
              if h ≠ 0 then some h else none
          match high? with
          | none => none
          | some h =>
            let cnt := { cnt with high := h }
            if cnt.high ≤ cnt.base then none else some cnt
  else
    let cnt := { cnt with single := true }
    let val := __get_valid_uint16 content
    if val ≠ 0 then some { cnt with base := val } else none

/-! ## djb2 hashing and subcontext lookup (src/pattern.c label hashing,
     src/generator.c `__Generator__subcontext_for_label`) -/

/-- The djb2 hash used for labels in src/pattern.c and src/generator.c:
`hash = hash * 33 + c` starting from 5381, in unsigned long arithmetic. -/
def djb2 (s : String) : Nat :=
  s.toList.foldl (fun h c => (h * 33 + c.toNat) % U64) 5381

/-- `__Generator__subcontext_for_label` from src/generator.c, over the
factory's index of (hash, generator-context) entries: hash the label with
djb2, then scan the entries and return the context of the FIRST entry whose
stored hash field equals the computed hash (the `memcmp` compares only the
`unsigned long` hash).  No label-string comparison is performed.  Entries
are modelled as (hash, context-identifier) pairs. -/
def __Generator__subcontext_for_label (entries : List (Nat × Nat)) (label : String) :
    Option Nat :=
  (entries.find? (fun e => e.1 = djb2 label)).map (fun e => e.2)

/-! ## Output stack pop (src/api.c, `Nanofuzz__output_stack_pop` and
     `Nanofuzz__get_next`) -/

/-- Generated data blob (`fuzz_str_t` / `nanofuzz_data_t`), as its bytes. -/
def FuzzData := List Nat
deriving instance Repr, DecidableEq for FuzzData

/-- Provenance-tracking model of the value returned by the stack pop: either
a pointer into the stack's own base array at a slot index, or a freshly
allocated heap copy of a datum. -/
inductive DataPtr where
  | intoStack (idx : Nat)
  | heapCopy (d : FuzzData)
deriving Repr, DecidableEq

/-- The output stack from src/api.c (`struct _fuzz_output_stack_t`):
the base array contents, its capacity, and the live element count
(elements occupy slots 0..count-1, slot count-1 being the top). -/
structure OutputStack where
  slots : Nat → FuzzData
  size : Nat
  count : Nat

/-- `Nanofuzz__output_stack_pop` from src/api.c: if the stack is empty
return NULL; otherwise take `p_data = p_base + sizeof*count` (a pointer
into the stack array at slot index `count`, one past the top element),
decrement the count, allocate `p_data_copy` as a heap copy of that slot,
and return `p_data` (the copy is discarded).  The model returns the
provenance-tagged pointer together with the new stack. -/
def Nanofuzz__output_stack_pop (st : OutputStack) : Option DataPtr × OutputStack :=
  if st.count = 0 then (none, st)
  else
    let pData := DataPtr.intoStack st.count
    let _pDataCopy := DataPtr.heapCopy (st.slots st.count)
    (some pData, { st with count := st.count - 1 })

/-- `Nanofuzz__get_next` from src/api.c: a direct wrapper around
`Nanofuzz__output_stack_pop` on the context's stack. -/
def Nanofuzz__get_next (st : OutputStack) : Option DataPtr × OutputStack :=
  Nanofuzz__output_stack_pop st

/-! ## Pattern blocks and factories (src/pattern.h, src/pattern.c) -/

/-- `reference_type` from src/pattern.h. -/
inductive RefKind where
  | ref_declaration
  | ref_reference
  | ref_count
  | ref_shuffle
deriving Repr, DecidableEq

/-- `reference_length_type` from src/pattern.h. -/
inductive LenType where
  | raw_little
  | raw_big
  | binary
  | decimal
  | hexadecimal
  | hex_upper
  | octal
deriving Repr, DecidableEq

/-- `fuzz_reference_length_options_t` from src/pattern.h.  `add` is a
signed long long. -/
structure LenOpts where
  type : LenType
  width : Nat
  add : Int
deriving Repr, DecidableEq

/-- `fuzz_reference_t` from src/pattern.h. -/
structure FuzzRef where
  label : String
  hash : Nat
  type : RefKind
  lenopts : LenOpts
deriving Repr, DecidableEq

/-- The variant payload of a pattern block: the `type` tag of
`fuzz_pattern_block_t` together with the datum behind its `data` pointer
(a C string of bytes for `string`, a `fuzz_range_t` for `range`, the nest
id for `sub`, the step-back count for `ret`, a `fuzz_branch_root_t` for
`branch_root`, the forward jump distance for `branch_jmp`, a
`fuzz_reference_t` for `reference`, nothing for `end`). -/
inductive BlockData where
  | str (bytes : List Nat)
  | range (frags : List Repetition)
  | sub (nestId : Nat)
  | ret (back : Nat)
  | branch_root (steps : List Nat) (amount : Nat)
  | branch_jmp (off : Nat)
  | reference (ref : FuzzRef)
  | end_
deriving Repr, DecidableEq

/-- `fuzz_pattern_block_t` from src/pattern.h: the variant payload plus the
repetition count. -/
structure PatternBlock where
  data : BlockData
  count : Repetition
deriving Repr, DecidableEq

/-- The repetition count `{single=1, base=1, high=1}` that the parser
installs on freshly created blocks. -/
def countOne : Repetition := ⟨true, 1, 1⟩

/-- The terminal block appended by `__compress_List_to_factory`
(zero-initialised count, `end` type, NULL data). -/
def endBlock : PatternBlock := ⟨BlockData.end_, ⟨false, 0, 0⟩⟩

/-- `fuzz_factory_t` from src/pattern.h, restricted to the fields the
compile pipeline computes: the linear node sequence, its element count and
the computed `max_output_size`. -/
structure CompiledFactory where
  nodeSeq : List PatternBlock
  count : Nat
  maxOutputSize : Nat
deriving Repr, DecidableEq

/-- `__compress_List_to_factory` from src/pattern.c: fails on an empty list,
otherwise linearises the parsed blocks into an array terminated by an `end`
block, with `count = len + 1` and `max_output_size` initialised to 0. -/
def __compress_List_to_factory (l : List PatternBlock) : Option CompiledFactory :=
  if l.length < 1 then none
  else some { nodeSeq := l ++ [endBlock], count := l.length + 1, maxOutputSize := 0 }

/-- `PatternFactory__new` from src/pattern.c, modelled from the parsed block
list onward (`parsed = none` models a parse that raised an error and
returned NULL).  The pipeline compresses the list and attaches the
subcontexts; the call to `__PatternFactory__get_max_output_size` and the
associated rejection are commented out in the source (src/pattern.c lines
522-529), so no output-size check of any kind is applied and the returned
factory keeps `max_output_size = 0` as set by the compression step. -/
def PatternFactory__new (parsed : Option (List PatternBlock)) : Option CompiledFactory :=
  match parsed with
  | none => none
  | some l => __compress_List_to_factory l

/-- Modelled from the claim wording of C1: the computed maximum possible
output size of a parsed block list — for each emitting block (string,
range, or pasting/length reference), its `count.high` multiplied by the
`count.high` of all enclosing `Sub` blocks, summed.  This is the
spec-side bound against which the code is compared. -/
def specComputedBound : List PatternBlock → Nat :=
  go 1 []
where
  go (mult : Nat) (stack : List Nat) : List PatternBlock → Nat
  | [] => 0
  | b :: rest =>
    match b.data with
    | BlockData.sub _ => go (mult * b.count.high) (b.count.high :: stack) rest
    | BlockData.ret _ =>
      match stack with
      | [] => go mult [] rest
      | m :: s => go (mult / m) s rest
    | BlockData.branch_root _ _ => go mult stack rest
    | BlockData.branch_jmp _ => go mult stack rest
    | BlockData.end_ => go mult stack rest
    | BlockData.reference r =>
      match r.type with
      | RefKind.ref_declaration => go mult stack rest
      | RefKind.ref_shuffle => go mult stack rest
      | _ => mult * b.count.high + go mult stack rest
    | _ => mult * b.count.high + go mult stack rest

/-- The parsed block list of the pattern `((a{1,65535}){1,65535}){1,65535}`:
two nested subsequence openers, the inner static string, and the two
matching returns (each `ret` carries the length of its subsequence body).
Its computed maximum output size is 65535^3, far above the 2^32 - 1 cap. -/
def hugeBlockList : List PatternBlock :=
  [ ⟨BlockData.sub 0, ⟨false, 1, 65535⟩⟩
  , ⟨BlockData.sub 1, ⟨false, 1, 65535⟩⟩
  , ⟨BlockData.str [97], ⟨false, 1, 65535⟩⟩
  , ⟨BlockData.ret 1, ⟨false, 0, 0⟩⟩
  , ⟨BlockData.ret 3, ⟨false, 0, 0⟩⟩ ]

/-- `FUZZ_MAX_OUTPUT_SIZE` from src/pattern.h: `(1UL << 32) - 1`. -/
def FUZZ_MAX_OUTPUT_SIZE : Nat := 2 ^ 32 - 1

/-- A one-block parse list used as a witness input to the compile pipeline. -/
def tinyBlockList : List PatternBlock := [⟨BlockData.str [97], countOne⟩]

/-- The factory the compile pipeline produces from `tinyBlockList`. -/
def tinyFactory : CompiledFactory :=
  { nodeSeq := tinyBlockList ++ [endBlock], count := 2, maxOutputSize := 0 }

/-! ## Alternation back-fill (src/pattern.c, `__branch_write_end`) -/

/-- One iteration of the back-fill loop of `__branch_write_end`: for branch
table slot `i`, check `steps[i] != 0`, locate the block `steps[i] - 1`
positions after the branch root, require it to be a `branch_jmp`, and store
`(List__length(p_seq) - 1) - (root_index + move) + is_post_run` into its
data. -/
def branchWriteOne (rootIdx : Nat) (steps : List Nat) (isPostRun : Bool)
    (seq : List PatternBlock) (i : Nat) : Option (List PatternBlock) :=
  let s := steps.getD i 0
  if s = 0 then none
  else
    let move := s - 1
    match seq.get? (rootIdx + move) with
    | none => none
    | some blk =>
      match blk.data with
      | BlockData.branch_jmp _ =>
        some (seq.set (rootIdx + move)
          ⟨BlockData.branch_jmp
            ((seq.length - 1) - (rootIdx + move) + (if isPostRun then 1 else 0)),
           blk.count⟩)
      | _ => none

/-- `__branch_write_end` from src/pattern.c.  `rootIdx?` and `trackIdx?`
are the results of the two `List__index_of` calls (the index of the branch
root block in the sequence, and the index of the per-nest-level tracked
block, `none` when not found).  The branch root's steps table and arm count
are read from the block at the root index.  Returns the sequence with every
`branch_jmp` back-filled, or `none` where the C returns 0.

Note: the function computes `last_pattern_block` from the tracked block and
uses it only for the bounds check; the distance actually written (see
`branchWriteOne`) is taken from the end of the list, with the alternative
`last_pattern_block - root_index - move + is_post_run` left commented out
in the source. -/
def __branch_write_end (seq : List PatternBlock) (rootIdx? trackIdx? : Option Nat)
    (isPostRun : Bool) : Option (List PatternBlock) :=
  match rootIdx? with
  | none => none
  | some rootIdx =>
    match seq.get? rootIdx with
    | none => none
    | some rootBlk =>
      match rootBlk.data with
      | BlockData.branch_root steps amount =>
        let lastPatternBlock :=
          match trackIdx? with
          | some i => i
          | none => seq.length - 1
        if lastPatternBlock ≤ rootIdx then none
        else
          (List.range' 1 amount).foldlM (branchWriteOne rootIdx steps isPostRun) seq
      | _ => none

/-- The node sequence reached while parsing the pattern `a|b(cd)e`, at the
moment the `ret` closing the subsequence `(cd)` has just been appended and
the parser (with `is_branching == 1`) invokes `__branch_write_end`:
branch root at index 0 with steps `[1, 3]` (one explicit arm), the arm
blocks `a` and `b`, the un-filled `branch_jmp` placeholder at index 2, and
the subsequence blocks `sub`, `cd`, `ret`.  The per-nest tracker points at
the `sub` block, index 4. -/
def branchSeqExample : List PatternBlock :=
  [ ⟨BlockData.branch_root [1, 3] 1, countOne⟩
  , ⟨BlockData.str [97], countOne⟩
  , ⟨BlockData.branch_jmp 0, countOne⟩
  , ⟨BlockData.str [98], countOne⟩
  , ⟨BlockData.sub 0, countOne⟩
  , ⟨BlockData.str [99, 100], countOne⟩
  , ⟨BlockData.ret 1, ⟨false, 0, 0⟩⟩ ]

/-! ## Generator VM (src/generator.c, `Generator__get_next`) -/

/-- `FUZZ_MAX_NESTING_COMPLEXITY` from src/pattern.h. -/
def FUZZ_MAX_NESTING_COMPLEXITY : Nat := 5

/-- sizeof(fuzz_pattern_block_t) on LP64/x86-64: `void* data` at offset 0
(8 bytes), `fuzz_repetition_t count` at offset 8 (unsigned char + 2 x
unsigned short, size 6), `pattern_block_type type` (int-sized enum) at
offset 16, total 20 rounded up to the 8-byte alignment: 24 bytes. -/
def SIZEOF_FUZZ_PATTERN_BLOCK : Nat := 24

/-- sizeof(fuzz_factory_t) on LP64/x86-64: `void* node_seq` (8) +
`size_t count` (8) + `size_t max_output_size` (8) + `fuzz_subcontext_t
subcontexts[32]` (32 x 40 = 1280, each entry being hash 8 + label 9 padded
to 16 + two pointers 16) + `size_t subcontexts_count` (8): 1312 bytes. -/
def SIZEOF_FUZZ_FACTORY : Nat := 1312

/-- The loop-guard instruction limit of `Generator__get_next`
(src/generator.c lines 223-226): the pseudo-instruction pointer, at byte
offset `pip * sizeof(fuzz_pattern_block_t)`, is compared against
`p_instruction_limit = node_seq + count * sizeof(fuzz_factory_t)` — note
the multiplier is the size of the whole FACTORY struct, not of one block. -/
def instructionLimitAdmits (pip count : Nat) : Bool :=
  SIZEOF_FUZZ_PATTERN_BLOCK * pip < SIZEOF_FUZZ_FACTORY * count

/-- `counter_t` from src/generator.c: two unsigned shorts. -/
structure Counter where
  howMany : Nat
  generated : Nat
deriving Repr, DecidableEq

/-- The mutable part of `fuzz_gen_ctx_t` from src/generator.c: pool size
(`type * FUZZ_GEN_CTX_POOL_MULTIPLIER`), the data pool bytes, the state
vector (nest level and per-level counters), and the most-recent output. -/
structure GenState where
  poolSize : Nat
  pool : Nat → Nat
  nestLevel : Nat
  counters : Nat → Counter
  mostRecent : Option (List Nat)

/-- A factory together with its attached subcontexts: the node sequence
(including the trailing `end` block, so that its length is the factory's
`count`) and, for each declared variable, its hash, label and the
sub-generator (state plus sub-factory). -/
inductive GenTree where
  | mk : List PatternBlock → List (Nat × String × GenState × GenTree) → GenTree

/-- The node sequence of a factory tree. -/
def GenTree.blocks : GenTree → List PatternBlock
  | .mk b _ => b

/-- The subcontext entries of a factory tree. -/
def GenTree.subs : GenTree → List (Nat × String × GenState × GenTree)
  | .mk _ s => s

/-- All-zero data pool. -/
def zeroPool : Nat → Nat := fun _ => 0

/-- Zeroed counter array. -/
def zeroCounters : Nat → Counter := fun _ => ⟨0, 0⟩

/-- Pointwise update of a function-modelled array. -/
def updFn {α : Type} (f : Nat → α) (i : Nat) (v : α) : Nat → α :=
  fun j => if j = i then v else f j

/-- memcpy of `bytes` into the pool at byte offset `start`. -/
def poolWrite (pool : Nat → Nat) (start : Nat) (bytes : List Nat) : Nat → Nat :=
  fun j => if start ≤ j ∧ j < start + bytes.length then bytes.getD (j - start) 0 else pool j

/-- memset of the first `n` pool bytes to zero. -/
def memsetPrefix (pool : Nat → Nat) (n : Nat) : Nat → Nat :=
  fun j => if j < n then 0 else pool j

/-- C `strlen` on a modelled byte buffer: the number of bytes before the
first 0. -/
def cStrlen (l : List Nat) : Nat :=
  (l.takeWhile (fun b => b ≠ 0)).length

/-- The first `n` bytes of the pool (the copy taken for the returned
`fuzz_str_t`). -/
def readPool (pool : Nat → Nat) (n : Nat) : List Nat :=
  (List.range n).map pool

/-- `n` back-to-back copies of a byte sequence. -/
def listRepeat (n : Nat) (l : List Nat) : List Nat :=
  (List.replicate n l).flatten

/-- The `__gen_overflow` handler of `Generator__get_next` (src/generator.c
lines 575-585): zero the whole data pool, reset the nest level to 0 and
clear the most-recent pointer. -/
def gen_overflow_reset (st : GenState) : GenState :=
  { st with pool := zeroPool, nestLevel := 0, mostRecent := none }

/-- The emit-capacity test used before every write:
`(bytes_to_write + p_current) >= p_pool_end`, where
`p_current = pool + written` and `p_pool_end = pool + poolSize + 1`. -/
def overflowHit (written add poolSize : Nat) : Bool :=
  poolSize + 1 ≤ written + add

/-- One byte drawn by the `range` case of `Generator__get_next`
(src/generator.c lines 437-452): select a fragment index with
`(uint8_t)Xoshiro128p__next_bounded(0, amount-1)`, then take the
fragment's base if it is single, else draw
`(uint8_t)Xoshiro128p__next_bounded(base, high)`. -/
def rangeDrawOne (frags : List Repetition) (rng : X128) : Nat × X128 :=
  let amount := frags.length
  let d := Xoshiro128p__next_bounded rng 0 (amount - 1)
  let f := frags.getD (d.1 % 256) ⟨true, 0, 0⟩
  if f.single then (f.base % 256, d.2)
  else
    let c := Xoshiro128p__next_bounded d.2 f.base f.high
    (c.1 % 256, c.2)

/-- The `iters` draws of the `range` case, in emission order. -/
def rangeDrawBytes (iters : Nat) (frags : List Repetition) (rng : X128) :
    List Nat × X128 :=
  match iters with
  | 0 => ([], rng)
  | n + 1 =>
    let d := rangeDrawOne frags rng
    let rest := rangeDrawBytes n frags d.2
    (d.1 :: rest.1, rest.2)

/-- `topow` from src/generator.c: `r = a; for (x = 1; x < b; x++) r *= a`
(so the result is `a` when `b ≤ 1`). -/
def topow (a b : Nat) : Nat :=
  if b ≤ 1 then a else a * topow a (b - 1)

/-- ASCII digits of `n` in the given base, lowercase (sprintf `%llu`,
`%llx`, `%llo`). -/
def asciiDigits (base n : Nat) : List Nat :=
  (Nat.toDigits base n).map Char.toNat

/-- Zero-pad an ASCII numeral on the left to `width` characters
(sprintf `%0<width>ll...`; longer numerals are kept whole). -/
def zeroPadTo (width : Nat) (s : List Nat) : List Nat :=
  List.replicate (width - s.length) 48 ++ s

/-- The binary rendering of the `ref_count` case: `width` characters, the
first showing bit `width-1` of the value, `'1'`/`'0'`. -/
def binBits (width len : Nat) : List Nat :=
  (List.range width).map (fun k => if len.testBit (width - 1 - k) then 49 else 48)

/-- The raw rendering of the `ref_count` case: `memcpy(p_len, &len, width)`
on a little-endian host, i.e. the low `width` bytes of the value,
least-significant first (used for BOTH `raw_little` and `raw_big`). -/
def rawBytes (width len : Nat) : List Nat :=
  (List.range width).map (fun i => (len >>> (8 * i)) % 256)

/-- The length-formatting performed by the `ref_count` case of
`Generator__get_next` (src/generator.c lines 291-378): given the length
options and the (already add-adjusted, uint64) value, the bytes emitted per
iteration.  For string types with a positive width whose bit capacity is
below 64 the value is first reduced modulo the field capacity
(`topow(10,width)` for decimal, `1UL << (multiplier*width)` otherwise). -/
def formatLen (opts : LenOpts) (len0 : Nat) : List Nat :=
  match opts.type with
  | LenType.raw_little => rawBytes opts.width len0
  | LenType.raw_big => rawBytes opts.width len0
  | t =>
    let wm : Nat :=
      match t with
      | LenType.binary => 1
      | LenType.decimal => 10
      | LenType.hexadecimal => 4
      | LenType.hex_upper => 4
      | _ => 3
    let len1 :=
      if 0 < opts.width ∧ wm * opts.width < 64 then
        if t = LenType.decimal then len0 % topow 10 opts.width
        else len0 % (2 ^ (wm * opts.width))
      else len0
    match t with
    | LenType.binary => binBits opts.width len1
    | LenType.decimal =>
      if 0 < opts.width then zeroPadTo opts.width (asciiDigits 10 len1)
      else asciiDigits 10 len1
    | LenType.hexadecimal =>
      if 0 < opts.width then zeroPadTo opts.width (asciiDigits 16 len1)
      else asciiDigits 16 len1
    | LenType.hex_upper =>
      if 0 < opts.width then
        zeroPadTo opts.width ((Nat.toDigits 16 len1).map (fun c => c.toUpper.toNat))
      else (Nat.toDigits 16 len1).map (fun c => c.toUpper.toNat)
    | _ =>
      if 0 < opts.width then zeroPadTo opts.width (asciiDigits 8 len1)
      else asciiDigits 8 len1

/-- Index of the subcontext entry used by the `reference` case: the first
entry whose stored hash equals the djb2 hash of the label (the hash-only
search of `__Generator__subcontext_for_label`). -/
def findSubIdx (subs : List (Nat × String × GenState × GenTree)) (label : String) :
    Option Nat :=
  subs.findIdx? (fun e => e.1 = djb2 label)

/-- Whether a block is the `end` sentinel (the loop condition
`end != pip->type`). -/
def blkIsEnd (b : PatternBlock) : Bool :=
  match b.data with
  | BlockData.end_ => true
  | _ => false

/-- Whether a block is a `sub` or `ret` (the only types processed while
nullified). -/
def blkIsSubRet (b : PatternBlock) : Bool :=
  match b.data with
  | BlockData.sub _ => true
  | BlockData.ret _ => true
  | _ => false

/-- Outcome of the instruction loop of `Generator__get_next`, before the
function epilogue: normal loop exit with the bytes written, a jump to
`__gen_overflow`, the bare `return NULL` paths, undefined behaviour, or
fuel exhaustion of the model. -/
inductive LoopOut where
  | done (st : GenState) (fac : GenTree) (rng : X128) (written : Nat)
  | overflow (st : GenState) (fac : GenTree) (rng : X128)
  | failNull (st : GenState) (fac : GenTree) (rng : X128)
  | crash
  | outOfFuel

/-- Result of one `Generator__get_next` call: a produced output, NULL via
the bare return (no state reset), NULL via `__gen_overflow` (with reset),
undefined behaviour, or model fuel exhaustion. -/
inductive GenResult where
  | ok (out : List Nat)
  | failNull
  | overflow
  | crash
  | outOfFuel
deriving Repr, DecidableEq

/-- The epilogue of `Generator__get_next` (src/generator.c lines 551-585),
turning the loop outcome into the function's result: on normal exit copy
the written bytes out, store them as the most-recent output and memset the
used pool prefix; on `__gen_overflow` apply the reset handler and return
NULL.  `st0`, `fac0`, `rng0` are the values untouched by the model-only
outcomes (fuel exhaustion, undefined behaviour). -/
def genEpilogue (st0 : GenState) (fac0 : GenTree) (rng0 : X128) (lo : LoopOut) :
    GenResult × GenState × GenTree × X128 :=
  match lo with
  | LoopOut.outOfFuel => (GenResult.outOfFuel, st0, fac0, rng0)
  | LoopOut.crash => (GenResult.crash, st0, fac0, rng0)
  | LoopOut.failNull st' fac' rng' => (GenResult.failNull, st', fac', rng')
  | LoopOut.overflow st' fac' rng' => (GenResult.overflow, gen_overflow_reset st', fac', rng')
  | LoopOut.done st' fac' rng' written =>
    let out := readPool st'.pool written
    (GenResult.ok out,
     { st' with mostRecent := some out, pool := memsetPrefix st'.pool (written + 1) },
     fac', rng')

/-- The instruction loop of `Generator__get_next` (src/generator.c lines
226-549).  Arguments: fuel, the factory tree, the context state, the
global PRNG state, the pseudo-instruction pointer (block index), the bytes
written so far (`p_current - p_data_pool`) and the nullified marker (the
nest-level index whose counter `p_nullified` points at).  The `reference`
case runs a whole nested `Generator__get_next` call on the sub-generator
by chaining the loop with the epilogue. -/
def genLoop (fuel : Nat) (fac : GenTree) (st : GenState) (rng : X128)
    (pip written : Nat) (nullified : Option Nat) : LoopOut :=
  match fuel with
  | 0 => LoopOut.outOfFuel
  | fuel + 1 =>
    let blocks := fac.blocks
    let count := blocks.length
    match blocks.get? pip with
    | none => LoopOut.crash
    | some blk =>
      if blkIsEnd blk then LoopOut.done st fac rng written
      else if ¬ instructionLimitAdmits pip count then
        LoopOut.done st fac rng written
      else
        if nullified.isSome ∧ ¬ blkIsSubRet blk then
          genLoop fuel fac st rng (pip + 1) written nullified
        else
          -- The iteration count is computed branchlessly in the C: the
          -- bounded draw is evaluated (stepping the PRNG) on EVERY block,
          -- and merely multiplied by 0 when the count is single.
          let itersDraw := Xoshiro128p__next_bounded rng blk.count.base blk.count.high
          let iters := if blk.count.single then blk.count.base else itersDraw.1
          let rng := itersDraw.2
          match blk.data with
          | BlockData.str data =>
            let z := cStrlen data
            if overflowHit written (iters * z) st.poolSize then
              LoopOut.overflow st fac rng
            else
              genLoop fuel fac
                { st with pool := poolWrite st.pool written (listRepeat iters (data.take z)) }
                rng (pip + 1) (written + iters * z) nullified
          | BlockData.range frags =>
            if overflowHit written iters st.poolSize then
              LoopOut.overflow st fac rng
            else if 0 < frags.length then
              let (bytes, rng') := rangeDrawBytes iters frags rng
              genLoop fuel fac
                { st with pool := poolWrite st.pool written bytes }
                rng' (pip + 1) (written + iters) nullified
            else
              genLoop fuel fac st rng (pip + 1) written nullified
          | BlockData.sub _ =>
            let lvl := st.nestLevel
            if FUZZ_MAX_NESTING_COMPLEXITY ≤ lvl then LoopOut.crash
            else
              let st := { st with counters := updFn st.counters lvl ⟨iters % 65536, 0⟩ }
              let nullified :=
                if iters = 0 ∧ nullified = none then some lvl else nullified
              genLoop fuel fac { st with nestLevel := lvl + 1 } rng (pip + 1) written nullified
          | BlockData.ret back =>
            let lvl := st.nestLevel
            if lvl = 0 then LoopOut.crash
            else
              let idx := lvl - 1
              match nullified with
              | some nidx =>
                if idx = nidx then
                  genLoop fuel fac
                    { st with counters := updFn st.counters idx ⟨0, 1⟩, nestLevel := idx }
                    rng (pip + 1) written none
                else
                  genLoop fuel fac { st with nestLevel := idx } rng (pip + 1) written nullified
              | none =>
                let c := st.counters idx
                let g := (c.generated + 1) % 65536
                let st := { st with counters := updFn st.counters idx ⟨c.howMany, g⟩ }
                if g ≠ 65535 ∧ g < c.howMany then
                  if back ≤ pip then
                    genLoop fuel fac st rng (pip - back) written nullified
                  else LoopOut.crash
                else
                  genLoop fuel fac { st with nestLevel := idx } rng (pip + 1) written nullified
          | BlockData.branch_root steps amount =>
            let (select, rng') := Xoshiro128p__next_bounded rng 0 amount
            let incr := steps.getD select 0
            genLoop fuel fac st rng' (pip + (if incr = 0 then 1 else incr)) written nullified
          | BlockData.branch_jmp off =>
            genLoop fuel fac st rng (pip + (if off = 0 then 1 else off)) written nullified
          | BlockData.reference ref =>
            match findSubIdx fac.subs ref.label with
            | none => LoopOut.overflow st fac rng
            | some i =>
              match fac.subs.get? i with
              | none => LoopOut.crash
              | some (h, lbl, sst, stree) =>
                let primed :=
                  if sst.mostRecent = none then
                    let r := genEpilogue sst stree rng (genLoop fuel stree sst rng 0 0 none)
                    (true, r.2.1, r.2.2.1, r.2.2.2)
                  else (false, sst, stree, rng)
                let wasRegen := primed.1
                let sst := primed.2.1
                let stree := primed.2.2.1
                let rng := primed.2.2.2
                let fac := GenTree.mk fac.blocks (fac.subs.set i (h, lbl, sst, stree))
                match ref.type with
                | RefKind.ref_reference =>
                  match sst.mostRecent with
                  | none => LoopOut.crash
                  | some out =>
                    let z := out.length
                    if overflowHit written (iters * z) st.poolSize then
                      LoopOut.overflow st fac rng
                    else
                      genLoop fuel fac
                        { st with pool := poolWrite st.pool written (listRepeat iters out) }
                        rng (pip + 1) (written + iters * z) nullified
                | RefKind.ref_count =>
                  match sst.mostRecent with
                  | none => LoopOut.crash
                  | some out =>
                    let len0 := (((out.length : Int) + ref.lenopts.add) % (U64 : Int)).toNat
                    let content := formatLen ref.lenopts len0
                    let stepLength := content.length
                    if overflowHit written (iters * stepLength) st.poolSize then
                      LoopOut.overflow st fac rng
                    else
                      genLoop fuel fac
                        { st with pool := poolWrite st.pool written (listRepeat iters content) }
                        rng (pip + 1) (written + iters * stepLength) nullified
                | RefKind.ref_shuffle =>
                  if wasRegen then genLoop fuel fac st rng (pip + 1) written nullified
                  else
                    let sst2 := { sst with mostRecent := none }
                    let r := genEpilogue sst2 stree rng (genLoop fuel stree sst2 rng 0 0 none)
                    let fac := GenTree.mk fac.blocks (fac.subs.set i (h, lbl, r.2.1, r.2.2.1))
                    genLoop fuel fac st r.2.2.2 (pip + 1) written nullified
                | RefKind.ref_declaration =>
                  genLoop fuel fac st rng (pip + 1) written nullified
          | BlockData.end_ => LoopOut.done st fac rng written

/-- `Generator__get_next` from src/generator.c: run the instruction loop
from block 0 with an empty pool cursor and apply the epilogue. -/
def genNext (fuel : Nat) (fac : GenTree) (st : GenState) (rng : X128) :
    GenResult × GenState × GenTree × X128 :=
  genEpilogue st fac rng (genLoop fuel fac st rng 0 0 none)

/-! ## Range negation (src/pattern.c, the `negated` section of
     `__range_parse_range`, lines 1759-1832) -/

/-- The inner loop of the selection sort used on negated ranges: the
fragment with the least `base` (first one wins on ties). -/
def minBaseFrag (x : Repetition) (xs : List Repetition) : Repetition :=
  xs.foldl (fun m f => if f.base < m.base then f else m) x

/-- Selection sort of range fragments by `base`, as performed in place by
`__range_parse_range` before inverting a negated range (fuel-driven; the
fuel is the list length). -/
def selSortGo : Nat → List Repetition → List Repetition
  | 0, _ => []
  | _ + 1, [] => []
  | fuel + 1, x :: xs =>
    let m := minBaseFrag x xs
    m :: selSortGo fuel ((x :: xs).erase m)

/-- Selection sort entry point. -/
def selSort (l : List Repetition) : List Repetition :=
  selSortGo l.length l

/-- Whether `base` equals the previous fragment's `high + 1` (the
sequential-list skip `p->base == prev->high + 1`; false with no
predecessor). -/
def adjoinsPrev (prev : Option Repetition) (base : Nat) : Bool :=
  match prev with
  | some pv => decide (base = pv.high + 1)
  | none => false

/-- The start of the next gap: `prev ? prev->high + 1 : 0`. -/
def prevGapBase (prev : Option Repetition) : Nat :=
  match prev with
  | some pv => pv.high + 1
  | none => 0

/-- The left-to-right gap walk over the sorted fragments: skip a fragment
whose `base` is 0 or adjoins the previous fragment (`base = prev.high+1`),
otherwise emit the gap from `prev.high+1` (or 0 at the start) up to
`base - 1`.  `prev` is always the immediately preceding array element,
even when it was skipped. -/
def invertWalk (prev : Option Repetition) : List Repetition → List Repetition
  | [] => []
  | f :: rest =>
    if f.base = 0 then invertWalk (some f) rest
    else if adjoinsPrev prev f.base = true then invertWalk (some f) rest
    else
      let gb := prevGapBase prev
      let gh := if 1 < f.base then f.base - 1 else 0
      ⟨decide (gb = gh), gb, gh⟩ :: invertWalk (some f) rest

/-- The full inversion: the gap walk plus, when the last sorted fragment
does not reach 255, a final gap up to 255. -/
def invertFrags (l : List Repetition) : List Repetition :=
  let gaps := invertWalk none l
  match l.getLast? with
  | none => gaps
  | some la =>
    if la.high ≠ 255 then
      gaps ++ [⟨decide (la.high + 1 = 255), la.high + 1, 255⟩]
    else gaps

/-- The fragment set stored into a negated range block: sort the parsed
fragments by base, then take the gaps. -/
def __range_negate (l : List Repetition) : List Repetition :=
  invertFrags (selSort l)

/-- Membership of a byte in the set denoted by a fragment list (each
fragment covering the inclusive interval from `base` to `high`). -/
def inFrags (b : Nat) (l : List Repetition) : Prop :=
  ∃ f ∈ l, f.base ≤ b ∧ b ≤ f.high

instance (b : Nat) (l : List Repetition) : Decidable (inFrags b l) := by
  unfold inFrags
  exact List.decidableBEx _ l

/-- Well-formedness of a compiled range fragment, as guaranteed by
`__range_parse_range` for every stored fragment: bytes bounded by 255,
`base ≤ high`, and a strict interval whenever the fragment is not marked
single. -/
def wfFrag (f : Repetition) : Prop :=
  f.base ≤ f.high ∧ f.high ≤ 255 ∧ (f.single = false → f.base < f.high)

instance (f : Repetition) : Decidable (wfFrag f) := by
  unfold wfFrag
  infer_instance

/-- Non-overlap of two fragments, the check `__range_parse_range` performs
between every new fragment and all previously stored ones. -/
def fragsDisjoint (a c : Repetition) : Prop :=
  ¬ (a.base ≤ c.high ∧ c.base ≤ a.high)

instance (a c : Repetition) : Decidable (fragsDisjoint a c) := by
  unfold fragsDisjoint
  infer_instance

/-! ## Concrete structures used by the claim witnesses -/

/-- An output stack holding one element (in slot 0) with capacity 2. -/
def c4Stack : OutputStack :=
  { slots := fun i => if i = 0 then [1, 2, 3] else [9], size := 2, count := 1 }

/-- A 2-block factory: the static string "aa", then the terminator. -/
def c2Fac : GenTree :=
  GenTree.mk [⟨BlockData.str [97, 97], countOne⟩, endBlock] []

/-- A fresh generator state whose pool holds a single byte. -/
def c2St : GenState :=
  { poolSize := 1, pool := zeroPool, nestLevel := 0,
    counters := zeroCounters, mostRecent := none }

/-- A concrete PRNG state. -/
def c2Rng : X128 := ⟨1, 2⟩

/-- `branchSeqExample` after `__branch_write_end` has back-filled the
`branch_jmp` at index 2 with the distance 4. -/
def branchSeqFilled : List PatternBlock :=
  branchSeqExample.set 2 ⟨BlockData.branch_jmp 4, countOne⟩

/-- The factory the compile pipeline produces from `hugeBlockList`. -/
def hugeFactory : CompiledFactory :=
  { nodeSeq := hugeBlockList ++ [endBlock], count := 6, maxOutputSize := 0 }

/-! # Theorems -/

/-! ## Helper lemmas about the branchless bounded draw -/

/-- When `high ≤ low` the whole branchless expression is multiplied by 0. -/
theorem boundedOf_of_not_lt (v low high : Nat) (h : ¬ low < high) :
    boundedOf v low high = 0 := by
  simp [boundedOf, h]

/-- For `low < high < 2^64` the branchless expression lands in `[low, high]`. -/
theorem boundedOf_mem (v low high : Nat) (h1 : low < high) (h2 : high < U64) :
    low ≤ boundedOf v low high ∧ boundedOf v low high ≤ high := by
  have hU64 : U64 = 18446744073709551616 := rfl
  unfold boundedOf
  rw [if_pos h1, one_mul]
  have hsplit : 1 + high + U64 - low = U64 + (1 + high - low) := by omega
  rw [hsplit, Nat.add_mod_left]
  rcases Nat.lt_or_ge (1 + high - low) U64 with hlt | hge
  · rw [Nat.mod_eq_of_lt hlt]
    have hne : ¬ (1 + high - low = 0) := by omega
    rw [if_neg hne]
    have hv : v % (0 + (1 + high - low)) < 0 + (1 + high - low) :=
      Nat.mod_lt _ (by omega)
    have hlt2 : v % (0 + (1 + high - low)) + low < U64 := by omega
    rw [Nat.mod_eq_of_lt hlt2]
    omega
  · have heq : 1 + high - low = U64 := by omega
    rw [heq, Nat.mod_self]
    have hlow : low < U64 := by omega
    simp only [if_true, Nat.add_zero, Nat.mod_one, Nat.zero_add, reduceIte]
    rw [Nat.mod_eq_of_lt hlow]
    omega

/-! ## Claim C3 -/

/-- C3 counterexample: the claim states that for every `lo ≤ hi` the
bounded draw returns a value in `[lo, hi]`, in particular `lo` when
`hi = lo`.  At `lo = hi = 5` both `xoroshiro__get_bounded` and
`Xoshiro128p__next_bounded` return 0, which is not 5 and lies outside
`[5, 5]`: the boolean factor `(high > low)` multiplies the entire
expression, zeroing it whenever `high = low`. -/
theorem claim_C3_counterexample :
    (xoroshiro__get_bounded ⟨1, 2, 3, 4⟩ 5 5).1 = 0 ∧
    (Xoshiro128p__next_bounded ⟨1, 2⟩ 5 5).1 = 0 ∧
    ¬ (5 ≤ (0 : Nat)) := by
  refine ⟨?_, ?_, by decide⟩ <;> rfl

/-- C3 (amended): for every pair `lo < hi` (with `hi` a uint64 value) both
bounded draws return a value in the inclusive interval `[lo, hi]`; when
`hi = lo` both return 0 (which equals `lo` only for `lo = 0`). -/
theorem claim_C3 (s : X256) (g : X128) (low high : Nat)
    (_hle : low ≤ high) (hlt : high < U64) :
    (low < high →
      (low ≤ (xoroshiro__get_bounded s low high).1 ∧
       (xoroshiro__get_bounded s low high).1 ≤ high) ∧
      (low ≤ (Xoshiro128p__next_bounded g low high).1 ∧
       (Xoshiro128p__next_bounded g low high).1 ≤ high)) ∧
    (high = low →
      (xoroshiro__get_bounded s low high).1 = 0 ∧
      (Xoshiro128p__next_bounded g low high).1 = 0) := by
  constructor
  · intro h
    exact ⟨boundedOf_mem (xoroshiro256p_next s).1 low high h hlt,
           boundedOf_mem ((g.s0 + g.s1) % U64) low high h hlt⟩
  · intro h
    have hnl : ¬ low < high := by omega
    exact ⟨boundedOf_of_not_lt (xoroshiro256p_next s).1 low high hnl,
           boundedOf_of_not_lt ((g.s0 + g.s1) % U64) low high hnl⟩

/-- C3 witness: the amended theorem applied at `lo = 5`, `hi = 9` and
concrete PRNG states. -/
theorem claim_C3_witness :
    5 ≤ (xoroshiro__get_bounded ⟨1, 2, 3, 4⟩ 5 9).1 ∧
    (xoroshiro__get_bounded ⟨1, 2, 3, 4⟩ 5 9).1 ≤ 9 ∧
    5 ≤ (Xoshiro128p__next_bounded ⟨1, 2⟩ 5 9).1 ∧
    (Xoshiro128p__next_bounded ⟨1, 2⟩ 5 9).1 ≤ 9 := by
  have h := (claim_C3 ⟨1, 2, 3, 4⟩ ⟨1, 2⟩ 5 9 (by decide) (by decide)).1 (by decide)
  exact ⟨h.1.1, h.1.2, h.2.1, h.2.2⟩

/-! ## Claim C4 -/

/-- C4 (code bug): popping a one-element stack returns
`DataPtr.intoStack 1` — a pointer into the stack's own base array, at slot
index `count = 1`, which is moreover one slot past the top element (slot
0) — and not an independent heap copy, although the copy is computed and
then discarded.  The count is decremented as claimed. -/
theorem claim_C4 :
    (Nanofuzz__get_next c4Stack).1 = some (DataPtr.intoStack 1) ∧
    (Nanofuzz__get_next c4Stack).2.count = 0 ∧
    DataPtr.intoStack 1 ≠ DataPtr.heapCopy (c4Stack.slots 0) := by
  refine ⟨rfl, rfl, by decide⟩

/-! ## Claim C5 -/

/-- C5 counterexample: the claim states that the repetition `{0,0}`
compiles successfully; in fact `__bracket_parse_range` rejects the content
"0,0" (the high bound goes through `__get_valid_uint16`, which maps 0 to
failure), so compilation raises a syntax error. -/
theorem claim_C5_counterexample :
    __bracket_parse_range countOne ['0', ',', '0'] true = none := by
  rfl

/-- C5 (amended): `{0,0}` (content "0,0") is rejected at compile time —
repetition high bounds must be at least 1 and strictly exceed the base —
while the zero-capable repetition `{0,1}` (content "0,1") compiles to the
count `{single = 0, base = 0, high = 1}`. -/
theorem claim_C5 :
    __bracket_parse_range countOne ['0', ',', '0'] true = none ∧
    __bracket_parse_range countOne ['0', ',', '1'] true =
      some ⟨false, 0, 1⟩ := by
  exact ⟨rfl, rfl⟩

/-! ## Claim C9 -/

/-- C9 counterexample: the claim states that any escaped character other
than the named escapes and `\xHH` produces the literal character itself;
but `__escape_to_value` first maps upper-case letters to lower case, so
`\Q` (0x51) produces `q` (0x71), not `Q`. -/
theorem claim_C9_counterexample :
    parse_escape 81 0 0 = some 113 ∧ (113 : Nat) ≠ 81 := by
  refine ⟨rfl, by decide⟩

/-- C9 (amended): the named escapes `n r t b f v a s` produce their control
bytes or space; `\xHH` with two hex digits produces exactly the byte 0xHH;
any other character X produces the literal byte X — except that upper-case
letters A-Z (other than X, which starts a hex escape) are first mapped to
lower case, so their escapes behave as the escape of the lower-case
letter. -/
theorem claim_C9 :
    (∀ d1 d2 : Nat,
      parse_escape 110 d1 d2 = some 10 ∧ parse_escape 114 d1 d2 = some 13 ∧
      parse_escape 116 d1 d2 = some 9 ∧ parse_escape 98 d1 d2 = some 8 ∧
      parse_escape 102 d1 d2 = some 12 ∧ parse_escape 118 d1 d2 = some 11 ∧
      parse_escape 97 d1 d2 = some 7 ∧ parse_escape 115 d1 d2 = some 32) ∧
    (∀ d1 d2 : Nat, isxdigitB d1 = true → isxdigitB d2 = true →
      parse_escape 120 d1 d2 = some (16 * hexDigitVal d1 + hexDigitVal d2)) ∧
    (∀ c d1 d2 : Nat, c ≠ 0 → c ≠ 120 → c ≠ 88 →
      ¬ (0x41 ≤ c ∧ c ≤ 0x5A) →
      c ∉ ([97, 98, 116, 110, 118, 102, 114, 115] : List Nat) →
      parse_escape c d1 d2 = some c) ∧
    (∀ c d1 d2 : Nat, 0x41 ≤ c → c ≤ 0x5A → c ≠ 88 →
      parse_escape c d1 d2 = parse_escape (c + 0x20) d1 d2) := by
  refine ⟨fun d1 d2 => ⟨rfl, rfl, rfl, rfl, rfl, rfl, rfl, rfl⟩, ?_, ?_, ?_⟩
  · intro d1 d2 h1 h2
    unfold parse_escape
    rw [if_neg (by decide : ¬ (120 = 0)), if_pos (Or.inl rfl), if_pos ⟨h1, h2⟩]
  · intro c d1 d2 hc0 hc120 hc88 hup hlist
    simp only [List.mem_cons, List.not_mem_nil, or_false] at hlist
    push_neg at hlist
    unfold parse_escape
    rw [if_neg hc0, if_neg (by tauto : ¬ (c = 120 ∨ c = 88))]
    unfold __escape_to_value
    rw [if_neg hup]
    rw [if_neg hlist.1, if_neg hlist.2.1, if_neg hlist.2.2.1, if_neg hlist.2.2.2.1,
        if_neg hlist.2.2.2.2.1, if_neg hlist.2.2.2.2.2.1, if_neg hlist.2.2.2.2.2.2.1,
        if_neg hlist.2.2.2.2.2.2.2]
  · intro c d1 d2 h65 h90 h88
    have hc0 : ¬ (c = 0) := by omega
    have hcx : ¬ (c = 120 ∨ c = 88) := by omega
    have hc0' : ¬ (c + 0x20 = 0) := by omega
    have hcx' : ¬ (c + 0x20 = 120 ∨ c + 0x20 = 88) := by omega
    unfold parse_escape
    rw [if_neg hc0, if_neg hcx, if_neg hc0', if_neg hcx']
    unfold __escape_to_value
    rw [if_pos (⟨h65, h90⟩ : 0x41 ≤ c ∧ c ≤ 0x5A),
        if_neg (by omega : ¬ (0x41 ≤ c + 0x20 ∧ c + 0x20 ≤ 0x5A))]

/-- C9 witness: the amended theorem applied to the hex escape `\x09`, the
ordinary character `!` (0x21) and the upper-case letter `Q` (0x51). -/
theorem claim_C9_witness :
    parse_escape 120 48 57 = some 9 ∧
    parse_escape 33 0 0 = some 33 ∧
    parse_escape 81 0 0 = parse_escape 113 0 0 := by
  refine ⟨?_, ?_, ?_⟩
  · have h := claim_C9.2.1 48 57 (by decide) (by decide)
    simpa using h
  · exact claim_C9.2.2.1 33 0 0 (by decide) (by decide) (by decide) (by decide) (by decide)
  · exact claim_C9.2.2.2 81 0 0 (by decide) (by decide) (by decide)

/-! ## Claim C6 -/

/-- C6 (code bug): closing the alternation of `a|b(cd)e` — the branch ends
when the `ret` of the subsequence `(cd)` is appended — back-fills the
`branch_jmp` at index 2 with `(List__length - 1) - (root_index + move) = 4`,
which makes the jump land at index 6, the subsequence's `ret`; the first
block after the alternation is the `sub` at index 4 (the block the
function's own `last_pattern_block` tracker identifies), at block distance
`4 - 2 = 2`, so the stored offset differs from the claimed semantics. -/
theorem claim_C6 :
    __branch_write_end branchSeqExample (some 0) (some 4) false = some branchSeqFilled ∧
    branchSeqFilled.get? 2 = some ⟨BlockData.branch_jmp 4, countOne⟩ ∧
    branchSeqExample.get? (2 + 4) = some ⟨BlockData.ret 1, ⟨false, 0, 0⟩⟩ ∧
    branchSeqExample.get? 4 = some ⟨BlockData.sub 0, countOne⟩ ∧
    (4 : Nat) ≠ 4 - 2 := by
  refine ⟨rfl, rfl, rfl, rfl, by decide⟩

/-! ## Claim C10 -/

/-- C10 (code bug): the loop-guard limit of `Generator__get_next`
multiplies the block count by `sizeof(fuzz_factory_t)` = 1312 instead of
`sizeof(fuzz_pattern_block_t)` = 24, so it admits the pseudo-instruction
pointer far past the end of the `node_seq` array: for a 2-block program it
still admits block index 100, and even index 2 (the first out-of-bounds
index), so the bound does not coincide with the end of the array. -/
theorem claim_C10 :
    instructionLimitAdmits 100 2 = true ∧ ¬ (100 < 2) ∧
    SIZEOF_FUZZ_FACTORY ≠ SIZEOF_FUZZ_PATTERN_BLOCK ∧
    instructionLimitAdmits 2 2 = true := by
  decide

/-! ## Claim C1 -/

/-- C1 counterexample: the parsed block list of
`((a{1,65535}){1,65535}){1,65535}` has a computed maximum output size of
65535^3, far beyond the 2^32 - 1 cap, yet `PatternFactory__new` (whose
size check is commented out) succeeds, and the factory it returns carries
`max_output_size = 0`, not the computed bound. -/
theorem claim_C1_counterexample :
    PatternFactory__new (some hugeBlockList) = some hugeFactory ∧
    FUZZ_MAX_OUTPUT_SIZE ≤ specComputedBound hugeBlockList ∧
    hugeFactory.maxOutputSize = 0 ∧
    hugeFactory.maxOutputSize ≠ specComputedBound hugeBlockList := by
  refine ⟨rfl, by decide, rfl, by decide⟩

/-- C1 (amended): `PatternFactory__new` applies no output-size cap at all —
the call to `__PatternFactory__get_max_output_size` is commented out — and
every factory it returns carries `max_output_size = 0` (the value
installed by `__compress_List_to_factory`), never the computed bound. -/
theorem claim_C1 (parsed : Option (List PatternBlock)) (f : CompiledFactory)
    (h : PatternFactory__new parsed = some f) : f.maxOutputSize = 0 := by
  cases parsed with
  | none => simp [PatternFactory__new] at h
  | some l =>
    rw [show PatternFactory__new (some l) = __compress_List_to_factory l from rfl] at h
    unfold __compress_List_to_factory at h
    by_cases hl : l.length < 1
    · rw [if_pos hl] at h
      cases h
    · rw [if_neg hl] at h
      injection h with h2
      rw [← h2]

/-- C1 witness: the amended theorem applied to a one-block parse list. -/
theorem claim_C1_witness :
    PatternFactory__new (some tinyBlockList) = some tinyFactory ∧
    tinyFactory.maxOutputSize = 0 :=
  ⟨rfl, claim_C1 (some tinyBlockList) tinyFactory rfl⟩

/-! ## Claim C2 -/

/-- C2: whenever `Generator__get_next` fails because an emit would exceed
the output buffer capacity (the `__gen_overflow` outcome), the returned
context has its data pool zeroed, its nest level reset to 0 and its
most-recent output cache cleared, and no output (in particular no partial
output) is returned; the context value remains available for subsequent
calls. -/
theorem claim_C2 (fuel : Nat) (fac : GenTree) (st : GenState) (rng : X128)
    (h : (genNext fuel fac st rng).1 = GenResult.overflow) :
    (genNext fuel fac st rng).2.1.pool = zeroPool ∧
    (genNext fuel fac st rng).2.1.nestLevel = 0 ∧
    (genNext fuel fac st rng).2.1.mostRecent = none ∧
    ∀ out, (genNext fuel fac st rng).1 ≠ GenResult.ok out := by
  unfold genNext at h ⊢
  cases hL : genLoop fuel fac st rng 0 0 none <;>
    simp_all [genEpilogue, gen_overflow_reset]

/-- C2 witness: a pool of one byte overflows on the two-byte string block
of `c2Fac`; the theorem applied there. -/
theorem claim_C2_witness :
    (genNext 3 c2Fac c2St c2Rng).1 = GenResult.overflow ∧
    (genNext 3 c2Fac c2St c2Rng).2.1.pool = zeroPool ∧
    (genNext 3 c2Fac c2St c2Rng).2.1.nestLevel = 0 ∧
    (genNext 3 c2Fac c2St c2Rng).2.1.mostRecent = none := by
  have h : (genNext 3 c2Fac c2St c2Rng).1 = GenResult.overflow := rfl
  have h2 := claim_C2 3 c2Fac c2St c2Rng h
  exact ⟨h, h2.1, h2.2.1, h2.2.2.1⟩

/-! ## Claim C8 -/

/-- C8 counterexample: the labels "AZ" and "B9" have the same djb2 hash;
with both declared, looking up "B9" returns the generator context of the
FIRST entry (the one declared for "AZ"), because
`__Generator__subcontext_for_label` compares only the hash and never
confirms the label string — so colliding labels do not each resolve to
their own sub-generator. -/
theorem claim_C8_counterexample :
    __Generator__subcontext_for_label [(djb2 "AZ", 1), (djb2 "B9", 2)] "B9" = some 1 ∧
    (1 : Nat) ≠ 2 ∧ djb2 "AZ" = djb2 "B9" := by
  refine ⟨by decide, by decide, by decide⟩

/-- C8 (amended): sub-generator lookup compares only the stored djb2 hash
(no label confirmation): whenever the entry hashes are pairwise distinct,
a declared label resolves to its own entry; with colliding hashes every
matching label resolves to the first entry holding the hash (second
conjunct: "AZ" resolves to entry 1 in the colliding table). -/
theorem claim_C8 :
    (∀ (entries : List (Nat × Nat)) (label : String) (c : Nat),
      List.Pairwise (fun a b => a.1 ≠ b.1) entries →
      (djb2 label, c) ∈ entries →
      __Generator__subcontext_for_label entries label = some c) ∧
    __Generator__subcontext_for_label [(djb2 "AZ", 1), (djb2 "B9", 2)] "AZ" = some 1 := by
  constructor
  · intro entries label c hpw hmem
    induction entries with
    | nil => cases hmem
    | cons e es ih =>
      rw [List.pairwise_cons] at hpw
      by_cases he : e.1 = djb2 label
      · rcases List.mem_cons.mp hmem with heq | htail
        · rw [← heq]
          simp [__Generator__subcontext_for_label, List.find?_cons_of_pos]
        · exact absurd he (hpw.1 _ htail)
      · rcases List.mem_cons.mp hmem with heq | htail
        · rw [← heq] at he
          simp at he
        · have hrec := ih hpw.2 htail
          unfold __Generator__subcontext_for_label at hrec ⊢
          rwa [List.find?_cons_of_neg _ (by simpa using he)]

  · decide

/-- C8 witness: the amended theorem applied to a one-entry table. -/
theorem claim_C8_witness :
    __Generator__subcontext_for_label [(djb2 "Q", 7)] "Q" = some 7 :=
  claim_C8.1 [(djb2 "Q", 7)] "Q" 7 (by simp) (by simp)

/-! ## Claim C7: helper lemmas -/

/-- `getD` at an in-range index is a member of the list. -/
theorem list_getD_mem {α : Type} (l : List α) (n : Nat) (d : α) (h : n < l.length) :
    l.getD n d ∈ l := by
  rw [List.getD_eq_getElem?_getD, List.getElem?_eq_getElem h]
  exact List.getElem_mem h

/-- The first component of the 128+ bounded draw is the branchless bound of
the pre-step sum. -/
theorem Xoshiro128p_next_bounded_fst (g : X128) (low high : Nat) :
    (Xoshiro128p__next_bounded g low high).1 = boundedOf ((g.s0 + g.s1) % U64) low high :=
  rfl

/-- The selection-sort inner fold picks an element of the list. -/
theorem minBaseFrag_mem (x : Repetition) (xs : List Repetition) :
    minBaseFrag x xs ∈ x :: xs := by
  induction xs generalizing x with
  | nil => simp [minBaseFrag]
  | cons y ys ih =>
    rw [minBaseFrag, List.foldl_cons]
    have h := ih (if y.base < x.base then y else x)
    rw [minBaseFrag] at h
    by_cases hb : y.base < x.base
    · rw [if_pos hb] at h ⊢
      simp only [List.mem_cons] at h ⊢
      tauto
    · rw [if_neg hb] at h ⊢
      simp only [List.mem_cons] at h ⊢
      tauto

/-- The selection-sort inner fold picks a least `base`. -/
theorem minBaseFrag_le (x : Repetition) (xs : List Repetition) :
    ∀ y ∈ x :: xs, (minBaseFrag x xs).base ≤ y.base := by
  induction xs generalizing x with
  | nil =>
    intro y hy
    rcases List.mem_cons.mp hy with rfl | h
    · simp [minBaseFrag]
    · cases h
  | cons z zs ih =>
    intro y hy
    have he : minBaseFrag x (z :: zs) = minBaseFrag (if z.base < x.base then z else x) zs := by
      rw [minBaseFrag, minBaseFrag, List.foldl_cons]
    have hh := ih (if z.base < x.base then z else x)
    have hmin : (minBaseFrag (if z.base < x.base then z else x) zs).base ≤
        (if z.base < x.base then z else x).base :=
      hh _ (List.mem_cons_self _ _)
    rcases List.mem_cons.mp hy with rfl | hy2
    · rw [he]
      refine Nat.le_trans hmin ?_
      by_cases hb : z.base < y.base
      · rw [if_pos hb]; omega
      · rw [if_neg hb]
    · rcases List.mem_cons.mp hy2 with rfl | hy3
      · rw [he]
        refine Nat.le_trans hmin ?_
        by_cases hb : y.base < x.base
        · rw [if_pos hb]
        · rw [if_neg hb]; omega
      · rw [he]
        exact hh y (List.mem_cons.mpr (Or.inr hy3))

/-- The fuel-driven selection sort permutes its input (given enough fuel). -/
theorem selSortGo_perm : ∀ (fuel : Nat) (l : List Repetition), l.length ≤ fuel →
    List.Perm (selSortGo fuel l) l := by
  intro fuel
  induction fuel with
  | zero =>
    intro l hl
    have : l = [] := List.length_eq_zero.mp (Nat.le_zero.mp hl)
    subst this
    simp [selSortGo]
  | succ n ih =>
    intro l hl
    cases l with
    | nil => simp [selSortGo]
    | cons x xs =>
      have hm : minBaseFrag x xs ∈ x :: xs := minBaseFrag_mem x xs
      have hlen : ((x :: xs).erase (minBaseFrag x xs)).length ≤ n := by
        rw [List.length_erase_of_mem hm]
        simp only [List.length_cons] at hl ⊢
        omega
      show List.Perm
        (minBaseFrag x xs :: selSortGo n ((x :: xs).erase (minBaseFrag x xs))) (x :: xs)
      exact List.Perm.trans ((ih _ hlen).cons _) (List.perm_cons_erase hm).symm

/-- The fuel-driven selection sort sorts by `base`. -/
theorem selSortGo_sorted : ∀ (fuel : Nat) (l : List Repetition), l.length ≤ fuel →
    List.Pairwise (fun a c => a.base ≤ c.base) (selSortGo fuel l) := by
  intro fuel
  induction fuel with
  | zero =>
    intro l hl
    have : l = [] := List.length_eq_zero.mp (Nat.le_zero.mp hl)
    subst this
    simp [selSortGo]
  | succ n ih =>
    intro l hl
    cases l with
    | nil => simp [selSortGo]
    | cons x xs =>
      have hm : minBaseFrag x xs ∈ x :: xs := minBaseFrag_mem x xs
      have hlen : ((x :: xs).erase (minBaseFrag x xs)).length ≤ n := by
        rw [List.length_erase_of_mem hm]
        simp only [List.length_cons] at hl ⊢
        omega
      rw [show selSortGo (n + 1) (x :: xs)
            = minBaseFrag x xs :: selSortGo n ((x :: xs).erase (minBaseFrag x xs)) from rfl]
      refine List.pairwise_cons.mpr ⟨?_, ih _ hlen⟩
      intro y hy
      have hy' : y ∈ (x :: xs).erase (minBaseFrag x xs) :=
        (selSortGo_perm n _ hlen).mem_iff.mp hy
      exact minBaseFrag_le x xs y (List.mem_of_mem_erase hy')

/-- For well-formed pairwise-disjoint fragments, the sorted sequence is
strictly separated: every earlier fragment ends before a later one
begins. -/
theorem selSort_sep (l : List Repetition)
    (hwf : ∀ f ∈ l, wfFrag f) (hdis : List.Pairwise fragsDisjoint l) :
    List.Pairwise (fun a c => a.high < c.base) (selSort l) := by
  have hperm : List.Perm (selSort l) l := selSortGo_perm l.length l (Nat.le_refl _)
  have hsorted := selSortGo_sorted l.length l (Nat.le_refl _)
  have hsym : ∀ {x y : Repetition}, fragsDisjoint x y → fragsDisjoint y x := by
    intro x y h
    unfold fragsDisjoint at *
    tauto
  have hdis' : List.Pairwise fragsDisjoint (selSort l) :=
    (hperm.pairwise_iff hsym).mpr hdis
  refine List.Pairwise.imp_of_mem ?_ (hsorted.and hdis')
  intro a b ha hb hab
  have hwfb := hwf b (hperm.mem_iff.mp hb)
  unfold wfFrag at hwfb
  unfold fragsDisjoint at hab
  omega

/-- In a separated well-formed sequence every fragment ends at or before
the last fragment's high bound. -/
theorem sep_last_high : ∀ (l : List Repetition) (la : Repetition),
    List.Pairwise (fun a c => a.high < c.base) l →
    (∀ f ∈ l, f.base ≤ f.high) →
    l.getLast? = some la →
    ∀ f ∈ l, f.high ≤ la.high := by
  intro l
  induction l with
  | nil =>
    intro la _ _ h
    simp at h
  | cons x xs ih =>
    intro la hpw hwf hlast f hf
    cases xs with
    | nil =>
      simp only [List.getLast?_singleton, Option.some.injEq] at hlast
      rcases List.mem_cons.mp hf with rfl | h
      · rw [← hlast]
      · cases h
    | cons y ys =>
      rw [List.getLast?_cons_cons] at hlast
      rw [List.pairwise_cons] at hpw
      have ihy := ih la hpw.2 (fun g hg => hwf g (List.mem_cons_of_mem _ hg)) hlast
      rcases List.mem_cons.mp hf with rfl | hf2
      · have h1 : f.high < y.base := hpw.1 y (List.mem_cons_self _ _)
        have h2 : y.base ≤ y.high := hwf y (by simp)
        have h3 : y.high ≤ la.high := ihy y (List.mem_cons_self _ _)
        omega
      · exact ihy f hf2

/-- Soundness of the gap walk: every byte covered by an emitted gap lies
outside every remaining fragment and strictly above the previous
fragment's high bound. -/
theorem invertWalk_sound : ∀ (l : List Repetition) (prev : Option Repetition) (b : Nat),
    List.Pairwise (fun a c => a.high < c.base) l →
    (∀ f ∈ l, f.base ≤ f.high) →
    (∀ pv, prev = some pv → ∀ f ∈ l, pv.high < f.base) →
    inFrags b (invertWalk prev l) →
    (¬ inFrags b l) ∧ (∀ pv, prev = some pv → pv.high < b) := by
  intro l
  induction l with
  | nil =>
    intro prev b _ _ _ hmem
    exact absurd hmem (by simp [invertWalk, inFrags])
  | cons f rest ih =>
    intro prev b hpw hwf hprev hmem
    rw [List.pairwise_cons] at hpw
    have hwfr : ∀ g ∈ rest, g.base ≤ g.high := fun g hg => hwf g (List.mem_cons_of_mem _ hg)
    have hwff : f.base ≤ f.high := hwf f (List.mem_cons_self _ _)
    have hprevf : ∀ pv, some f = some pv → ∀ g ∈ rest, pv.high < g.base := by
      intro pv hpv g hg
      injection hpv with hpv2
      rw [← hpv2]
      exact hpw.1 g hg
    by_cases h0 : f.base = 0
    · unfold invertWalk at hmem
      rw [if_pos h0] at hmem
      obtain ⟨hnr, hnext⟩ := ih (some f) b hpw.2 hwfr hprevf hmem
      have hfb : f.high < b := hnext f rfl
      constructor
      · rintro ⟨g, hg, hg1, hg2⟩
        rcases List.mem_cons.mp hg with rfl | hgr
        · omega
        · exact hnr ⟨g, hgr, hg1, hg2⟩
      · intro pv hpv
        have := hprev pv hpv f (List.mem_cons_self _ _)
        omega
    · by_cases h1 : adjoinsPrev prev f.base = true
      · unfold invertWalk at hmem
        rw [if_neg h0, if_pos h1] at hmem
        obtain ⟨hnr, hnext⟩ := ih (some f) b hpw.2 hwfr hprevf hmem
        have hfb : f.high < b := hnext f rfl
        constructor
        · rintro ⟨g, hg, hg1, hg2⟩
          rcases List.mem_cons.mp hg with rfl | hgr
          · omega
          · exact hnr ⟨g, hgr, hg1, hg2⟩
        · intro pv hpv
          subst hpv
          have hadj : f.base = pv.high + 1 := by simpa [adjoinsPrev] using h1
          omega
      · unfold invertWalk at hmem
        rw [if_neg h0, if_neg h1] at hmem
        obtain ⟨g, hg, hg1, hg2⟩ := hmem
        rcases List.mem_cons.mp hg with rfl | hgr
        · -- b lies in the freshly emitted gap
          dsimp only [prevGapBase] at hg1 hg2
          have hb : b < f.base := by
            by_cases h2 : 1 < f.base
            · rw [if_pos h2] at hg2
              omega
            · rw [if_neg h2] at hg2
              omega
          constructor
          · rintro ⟨g', hg', hg1', hg2'⟩
            rcases List.mem_cons.mp hg' with rfl | hgr'
            · omega
            · have := hpw.1 g' hgr'
              omega
          · intro pv hpv
            subst hpv
            simp only [prevGapBase] at hg1
            omega
        · obtain ⟨hnr, hnext⟩ := ih (some f) b hpw.2 hwfr hprevf ⟨g, hgr, hg1, hg2⟩
          have hfb : f.high < b := hnext f rfl
          constructor
          · rintro ⟨g', hg', hg1', hg2'⟩
            rcases List.mem_cons.mp hg' with rfl | hgr'
            · omega
            · exact hnr ⟨g', hgr', hg1', hg2'⟩
          · intro pv hpv
            have := hprev pv hpv f (List.mem_cons_self _ _)
            omega

/-- Soundness of the full inversion: every byte of the inverted fragment
set lies outside the original (sorted, separated) fragment set. -/
theorem invertFrags_sound (l : List Repetition)
    (hpw : List.Pairwise (fun a c => a.high < c.base) l)
    (hwf : ∀ f ∈ l, f.base ≤ f.high) (b : Nat)
    (hmem : inFrags b (invertFrags l)) : ¬ inFrags b l := by
  unfold invertFrags at hmem
  rcases hl : l.getLast? with _ | la
  · rw [hl] at hmem
    have : l = [] := List.getLast?_eq_none_iff.mp hl
    subst this
    simp [invertWalk, inFrags] at hmem
  · rw [hl] at hmem
    dsimp only at hmem
    by_cases hcap : la.high ≠ 255
    · rw [if_pos hcap] at hmem
      obtain ⟨g, hg, hg1, hg2⟩ := hmem
      rcases List.mem_append.mp hg with hgl | hgr
      · exact (invertWalk_sound l none b hpw hwf (fun pv hpv => by cases hpv)
          ⟨g, hgl, hg1, hg2⟩).1
      · rw [List.mem_singleton] at hgr
        subst hgr
        dsimp only at hg1
        rintro ⟨g', hg', hg1', hg2'⟩
        have := sep_last_high l la hpw hwf hl g' hg'
        omega
    · rw [if_neg hcap] at hmem
      exact (invertWalk_sound l none b hpw hwf (fun pv hpv => by cases hpv) hmem).1

/-- One drawn range byte belongs to the fragment set. -/
theorem rangeDrawOne_mem (frags : List Repetition) (rng : X128)
    (hne : frags ≠ []) (hlen : frags.length ≤ 256)
    (hwf : ∀ f ∈ frags, wfFrag f) :
    inFrags (rangeDrawOne frags rng).1 frags := by
  have hlpos : 0 < frags.length := List.length_pos.mpr hne
  set sel := (Xoshiro128p__next_bounded rng 0 (frags.length - 1)).1 with hseldef
  have hselle : sel < frags.length := by
    rcases Nat.lt_or_ge 1 frags.length with h2 | h2
    · have hU : (frags.length - 1) < U64 := by
        unfold U64
        omega
      have hb := boundedOf_mem ((rng.s0 + rng.s1) % U64) 0 (frags.length - 1)
        (by omega) hU
      rw [hseldef, Xoshiro128p_next_bounded_fst]
      omega
    · have h1 : frags.length = 1 := by omega
      rw [hseldef, Xoshiro128p_next_bounded_fst, h1]
      have hz := boundedOf_of_not_lt ((rng.s0 + rng.s1) % U64) 0 (1 - 1) (by omega)
      omega
  have hsel256 : sel % 256 = sel := Nat.mod_eq_of_lt (by omega)
  set f0 := frags.getD (sel % 256) (⟨true, 0, 0⟩ : Repetition) with hf0def
  have hf0 : f0 ∈ frags := by
    rw [hf0def, hsel256]
    exact list_getD_mem _ _ _ hselle
  have hwf0 := hwf f0 hf0
  unfold wfFrag at hwf0
  by_cases hs : f0.single
  · have hval : (rangeDrawOne frags rng).1 = f0.base % 256 := by
      simp only [rangeDrawOne]
      rw [← hseldef, ← hf0def, if_pos hs]
    rw [hval, Nat.mod_eq_of_lt (by omega)]
    exact ⟨f0, hf0, Nat.le_refl _, hwf0.1⟩
  · have hval : (rangeDrawOne frags rng).1 =
        (Xoshiro128p__next_bounded (Xoshiro128p__next_bounded rng 0 (frags.length - 1)).2
          f0.base f0.high).1 % 256 := by
      simp only [rangeDrawOne]
      rw [← hseldef, ← hf0def, if_neg hs]
    have hstrict : f0.base < f0.high := hwf0.2.2 (by simpa using hs)
    have hU : f0.high < U64 := by
      unfold U64
      omega
    have hb := boundedOf_mem
      (((Xoshiro128p__next_bounded rng 0 (frags.length - 1)).2.s0 +
        (Xoshiro128p__next_bounded rng 0 (frags.length - 1)).2.s1) % U64)
      f0.base f0.high hstrict hU
    rw [hval, Xoshiro128p_next_bounded_fst, Nat.mod_eq_of_lt (by omega)]
    exact ⟨f0, hf0, hb.1, hb.2⟩

/-- Every byte of an iterated range draw belongs to the fragment set. -/
theorem rangeDrawBytes_mem (frags : List Repetition)
    (hne : frags ≠ []) (hlen : frags.length ≤ 256)
    (hwf : ∀ f ∈ frags, wfFrag f) :
    ∀ (iters : Nat) (rng : X128) (b : Nat),
      b ∈ (rangeDrawBytes iters frags rng).1 → inFrags b frags := by
  intro iters
  induction iters with
  | zero =>
    intro rng b h
    simp [rangeDrawBytes] at h
  | succ n ih =>
    intro rng b h
    rw [show rangeDrawBytes (n + 1) frags rng =
        ((rangeDrawOne frags rng).1 :: (rangeDrawBytes n frags (rangeDrawOne frags rng).2).1,
         (rangeDrawBytes n frags (rangeDrawOne frags rng).2).2) from rfl] at h
    rcases List.mem_cons.mp h with rfl | h2
    · exact rangeDrawOne_mem frags rng hne hlen hwf
    · exact ih _ _ h2

/-! ## Claim C7 -/

/-- C7: range correctness.  (1) Every byte emitted by the generator's range
case (`rangeDrawBytes`, the draws performed by `Generator__get_next` for a
`[S]` block) is a member of the fragment set stored in the compiled block,
for well-formed fragments as `__range_parse_range` produces them.
(2) For a negated range `[^S]`, the fragment set stored in the block —
`__range_negate`, i.e. the source's selection sort followed by the gap
walk — contains only bytes outside the parsed set S, for well-formed,
pairwise non-overlapping parsed fragments (exactly what the parser's
overlap check enforces).  Together: every byte emitted by `[S]` is in S,
and every byte emitted by `[^S]` is outside S. -/
theorem claim_C7 :
    (∀ (iters : Nat) (frags : List Repetition) (rng : X128) (b : Nat),
      frags ≠ [] → frags.length ≤ 256 → (∀ f ∈ frags, wfFrag f) →
      b ∈ (rangeDrawBytes iters frags rng).1 → inFrags b frags) ∧
    (∀ (l : List Repetition) (b : Nat),
      (∀ f ∈ l, wfFrag f) → List.Pairwise fragsDisjoint l →
      inFrags b (__range_negate l) → ¬ inFrags b l) := by
  constructor
  · intro iters frags rng b hne hlen hwf hb
    exact rangeDrawBytes_mem frags hne hlen hwf iters rng b hb
  · intro l b hwf hdis hmem
    have hsep := selSort_sep l hwf hdis
    have hperm : List.Perm (selSort l) l := selSortGo_perm l.length l (Nat.le_refl _)
    have hwf' : ∀ f ∈ selSort l, f.base ≤ f.high := fun f hf =>
      (hwf f (hperm.mem_iff.mp hf)).1
    have hns := invertFrags_sound (selSort l) hsep hwf' b hmem
    rintro ⟨f, hf, h1, h2⟩
    exact hns ⟨f, hperm.mem_iff.mpr hf, h1, h2⟩

/-- C7 witness: the theorem applied to the single-fragment range `[A-Z]`
(fragment 65..90): the first of two drawn bytes is in the set, and byte 0
is outside the set because it is covered by the negated block's fragments
and the theorem excludes it. -/
theorem claim_C7_witness :
    inFrags ((rangeDrawBytes 2 [⟨false, 65, 90⟩] ⟨1, 2⟩).1.headD 0)
      [(⟨false, 65, 90⟩ : Repetition)] ∧
    ¬ inFrags 0 [(⟨false, 65, 90⟩ : Repetition)] := by
  constructor
  · exact claim_C7.1 2 [⟨false, 65, 90⟩] ⟨1, 2⟩ _ (by decide) (by decide) (by decide)
      (by decide)
  · exact claim_C7.2 [⟨false, 65, 90⟩] 0 (by decide) (by decide) (by decide)

end Nanofuzz
